import Mathlib

/-!
Verification of the `args` shell-like command-line tokenizer.

The development embeds the Go package faithfully:
  - `nextTokenLoop` / `nextToken` embed `Scanner.NextToken` (a per-call state
    machine over the remaining input, modelled as a `List Char`);
  - `getTokensFuel` / `getTokens` embed the private driver `getTokens(max)`,
    with its three modes (unbounded for `max = 0`, bounded for `max > 0`,
    option-seeking for `max < 0`);
  - `GetArgs`, `GetArgsN`, `GetOptions`, `GetTokensN`, `GetOptionTokens`
    embed the public wrappers;
  - `ParseArgs`, `Args.GetOption`, `Args.GetIntOption` embed the option
    splitter, with the Go `map[string]string` modelled as an insertion-ordered
    association list with overwrite-on-duplicate.

Machine integers: Go `int` is modelled as `Int` (with explicit int64 clamping
inside the model of `strconv.Atoi`, the only place overflow can matter).
Errors: the only error value that can occur is `io.EOF`; it is modelled as a
`Bool` flag (`none` for `NextToken`).
-/

namespace ArgsPkg

/-- Escape character `\` (Go constant `ESCAPE_CHAR`). -/
def ESCAPE_CHAR : Char := '\\'

/-- Option lead character `-` (Go constant `OPTION_CHAR`). -/
def OPTION_CHAR : Char := '-'

/-- The backquote character, code point 96. -/
def backquoteChar : Char := Char.ofNat 96

/-- The single-quote character, code point 39. -/
def squoteChar : Char := Char.ofNat 39

/-- The double-quote character, code point 34. -/
def dquoteChar : Char := Char.ofNat 34

/-- The opening-brace character, code point 123. -/
def lbraceChar : Char := Char.ofNat 123

/-- The closing-brace character, code point 125. -/
def rbraceChar : Char := Char.ofNat 125

/-- Go constant `QUOTE_CHARS`: backquote, single quote, double quote. -/
def QUOTE_CHARS : List Char := [backquoteChar, squoteChar, dquoteChar]

/-- Go constant `SYMBOL_CHARS`: the seven characters of the Go string literal
holding pipe, greater-than, less-than, hash, opening brace, opening
parenthesis, opening square bracket. -/
def SYMBOL_CHARS : List Char := ['|', '>', '<', '#', lbraceChar, '(', '[']

/-- Go constant `NO_QUOTE = unicode.ReplacementChar` (U+FFFD): the sentinel
stored in the scanner's `quote` variable when no quote is active. -/
def NO_QUOTE : Char := Char.ofNat 0xFFFD

/-- Go map `BRACKETS`: opening bracket to required closing bracket. -/
def BRACKETS (c : Char) : Option Char :=
  if c = lbraceChar then some rbraceChar
  else if c = '[' then some ']'
  else if c = '(' then some ')'
  else none

/-- Go `unicode.IsSpace`: membership in the Unicode White_Space property
(the exact set tested by the Go standard library). -/
def isSpaceGo (c : Char) : Bool :=
  let n := c.toNat
  (0x09 ≤ n && n ≤ 0x0D) || n == 0x20 || n == 0x85 || n == 0xA0 ||
  n == 0x1680 || (0x2000 ≤ n && n ≤ 0x200A) || n == 0x2028 || n == 0x2029 ||
  n == 0x202F || n == 0x205F || n == 0x3000

/-- The mutable locals of one `NextToken` call: accumulated buffer `buf`,
the `first`, `escape` flags, the active quote (`NO_QUOTE` when none), the
stack of pending closing brackets (top at the head; Go appends at the end
and indexes the last element, which is the same stack), and the `delim`
named return value (0 until assigned). -/
structure ScanState where
  buf : List Char
  first : Bool
  escape : Bool
  quote : Char
  brackets : List Char
  delim : Nat
deriving Repr, DecidableEq

/-- The state at entry of `NextToken`. -/
def initState : ScanState :=
  { buf := [], first := true, escape := false, quote := NO_QUOTE,
    brackets := [], delim := 0 }

/-- The part of the `NextToken` loop body after the escape handling and the
`first` dispatch (Go lines beginning `if len(brackets) == 0`): either a
return value `(token, delim)` or the state for the next iteration. -/
def scanStep (c : Char) (st : ScanState) : (List Char × Nat) ⊕ ScanState :=
  if st.brackets = [] then
    if isSpaceGo c = true ∧ st.quote = NO_QUOTE then Sum.inl (st.buf, c.toNat)
    else if c = st.quote then Sum.inl (st.buf, c.toNat)
    else Sum.inr { st with buf := st.buf ++ [c] }
  else
    if st.quote = NO_QUOTE then
      match st.brackets with
      | [] => Sum.inr { st with buf := st.buf ++ [c] }
      | b :: bs =>
        if c = b then
          if bs = [] then Sum.inl (st.buf ++ [c], st.delim)
          else Sum.inr { st with buf := st.buf ++ [c], brackets := bs }
        else if c ∈ QUOTE_CHARS then
          Sum.inr { st with buf := st.buf ++ [c], quote := c }
        else
          match BRACKETS c with
          | some b2 =>
            Sum.inr { st with buf := st.buf ++ [c], brackets := b2 :: st.brackets }
          | none => Sum.inr { st with buf := st.buf ++ [c] }
    else if c = st.quote then
      Sum.inr { st with buf := st.buf ++ [c], quote := NO_QUOTE }
    else Sum.inr { st with buf := st.buf ++ [c] }

/-- The `NextToken` loop: given the remaining input and the current state,
return `none` for the `io.EOF` case (end of input with an empty buffer) or
`some (token, delim, rest)` where `rest` is the input left unconsumed. -/
def nextTokenLoop : List Char → ScanState → Option (List Char × Nat × List Char)
  | [], st => if st.buf = [] then none else some (st.buf, st.delim, [])
  | c :: cs, st =>
    if c = ESCAPE_CHAR ∧ st.escape = false then
      nextTokenLoop cs { st with escape := true, first := false }
    else if st.escape = true then
      nextTokenLoop cs { st with escape := false, buf := st.buf ++ [c] }
    else if st.first = true then
      if isSpaceGo c = true then nextTokenLoop cs st
      else if c ∈ QUOTE_CHARS then
        nextTokenLoop cs { st with first := false, quote := c }
      else
        match BRACKETS c with
        | some b =>
          nextTokenLoop cs
            { st with first := false, delim := c.toNat, brackets := [b],
                      buf := st.buf ++ [c] }
        | none =>
          if c ∈ SYMBOL_CHARS then some (st.buf ++ c :: cs, st.delim, [])
          else
            match scanStep c { st with first := false } with
            | Sum.inl (t, d) => some (t, d, cs)
            | Sum.inr st2 => nextTokenLoop cs st2
    else
      match scanStep c st with
      | Sum.inl (t, d) => some (t, d, cs)
      | Sum.inr st2 => nextTokenLoop cs st2

/-- `Scanner.NextToken` on a fresh scanner holding the given remaining
input. -/
def nextToken (l : List Char) : Option (List Char × Nat × List Char) :=
  nextTokenLoop l initState

/-- Outcome of the option-seeking peek loop inside `getTokens` (Go reads one
rune at a time, unreading it before breaking out): end of input, a `-` found
(input positioned at it), or another non-space character found (input
positioned at it, to be returned raw). -/
inductive PeekRes where
  | eofEnd : PeekRes
  | optNext : List Char → PeekRes
  | stopRest : List Char → PeekRes
deriving Repr, DecidableEq

/-- The option-seeking peek loop of `getTokens`: skip spaces; stop at `-`
(unread) or at any other non-space character (unread). -/
def peekOption : List Char → PeekRes
  | [] => PeekRes.eofEnd
  | c :: cs =>
    if c = OPTION_CHAR then PeekRes.optNext (c :: cs)
    else if isSpaceGo c = false then PeekRes.stopRest (c :: cs)
    else peekOption cs

/-- Go `strings.TrimSpace`: drop Unicode white space from both ends. -/
def trimSpaceGo (l : List Char) : List Char :=
  ((l.dropWhile (fun c => isSpaceGo c)).reverse.dropWhile
    (fun c => isSpaceGo c)).reverse

/-- Result of the `getTokens` driver: collected tokens, the rest string, and
whether the returned error was `io.EOF` (the only possible non-nil error). -/
structure TokRes where
  tokens : List (List Char)
  rest : List Char
  eofErr : Bool
deriving Repr, DecidableEq

/-- The driver loop `getTokens(max)`, with explicit fuel (one unit per loop
iteration; `input.length + 1` always suffices because every iteration that
loops again consumed at least one character). `i` is the loop counter,
`toks` the tokens collected so far, `l` the remaining input. -/
def getTokensFuel : Nat → Int → Nat → List (List Char) → List Char → TokRes
  | 0, _, _, toks, l => ⟨toks, l, true⟩
  | fuel + 1, max, i, toks, l =>
    if max ≤ 0 ∨ (i : Int) < max then
      if max < 0 then
        match peekOption l with
        | PeekRes.eofEnd => ⟨toks, [], false⟩
        | PeekRes.stopRest l1 => ⟨toks, l1, false⟩
        | PeekRes.optNext l1 =>
          match nextToken l1 with
          | none => ⟨toks, [], true⟩
          | some (t, _, rest) => getTokensFuel fuel max (i + 1) (toks ++ [t]) rest
      else
        match nextToken l with
        | none => ⟨toks, [], true⟩
        | some (t, _, rest) => getTokensFuel fuel max (i + 1) (toks ++ [t]) rest
    else
      ⟨toks, trimSpaceGo l, false⟩

/-- The private driver `Scanner.getTokens(max)` run on input `l`. -/
def getTokens (max : Int) (l : List Char) : TokRes :=
  getTokensFuel (l.length + 1) max 0 [] l

/-- `Scanner.GetTokens`: all tokens plus the final error flag (the rest
string of `getTokens(0)` is discarded). -/
def GetTokens (l : List Char) : List (List Char) × Bool :=
  ((getTokens 0 l).tokens, (getTokens 0 l).eofErr)

/-- `Scanner.GetTokensN(n)`. -/
def GetTokensN (n : Int) (l : List Char) : TokRes :=
  getTokens n l

/-- `Scanner.GetOptionTokens`: option tokens and the raw remainder
(`getTokens(-1)`). -/
def GetOptionTokens (l : List Char) : TokRes :=
  getTokens (-1) l

/-- `GetArgs(line)`: tokens of the line, errors and rest discarded. -/
def GetArgs (line : List Char) : List (List Char) :=
  (GetTokensN 0 line).tokens

/-- `GetArgsN(line, n)`: up to `n` tokens plus the raw remainder. -/
def GetArgsN (line : List Char) (n : Int) : List (List Char) × List Char :=
  ((GetTokensN n line).tokens, (GetTokensN n line).rest)

/-- `GetOptions(line)`: option tokens plus the raw remainder. -/
def GetOptions (line : List Char) : List (List Char) × List Char :=
  ((GetOptionTokens line).tokens, (GetOptionTokens line).rest)

/-- Insertion into the model of the Go `map[string]string`: overwrite in
place when the key exists, append otherwise. -/
def mapInsert : List (List Char × List Char) → List Char → List Char →
    List (List Char × List Char)
  | [], k, v => [(k, v)]
  | (k1, v1) :: rest, k, v =>
    if k1 = k then (k, v) :: rest else (k1, v1) :: mapInsert rest k v

/-- Lookup in the model of the Go `map[string]string` (the comma-ok form
`val, ok := m[name]`). -/
def mapGet : List (List Char × List Char) → List Char → Option (List Char)
  | [], _ => none
  | (k1, v1) :: rest, k => if k1 = k then some v1 else mapGet rest k

/-- The Go struct `Args`: parsed options and positional arguments. -/
structure Args where
  Options : List (List Char × List Char)
  Arguments : List (List Char)
deriving Repr, DecidableEq

/-- `Args.GetOption(name, def)`: the stored value when present, the supplied
default otherwise. -/
def Args.GetOption (a : Args) (name dflt : List Char) : List Char :=
  match mapGet a.Options name with
  | some val => val
  | none => dflt

/-- Go `strconv.Atoi`, syntax part, modelled from the Go standard library:
optional sign followed by at least one ASCII decimal digit; `none` on any
other shape. -/
def atoiParse (l : List Char) : Option Int :=
  let sd : Bool × List Char :=
    match l with
    | c :: r =>
      if c = '+' then (false, r)
      else if c = OPTION_CHAR then (true, r)
      else (false, l)
    | [] => (false, [])
  let ds := sd.2
  if ds.isEmpty then none
  else if ds.all (fun c => 48 ≤ c.toNat && c.toNat ≤ 57) then
    let n : Nat := ds.foldl (fun a c => a * 10 + (c.toNat - 48)) 0
    some (if sd.1 then -(n : Int) else (n : Int))
  else none

/-- Clamping of `strconv.ParseInt` range errors to the int64 bounds (Go
returns the clamped value alongside the discarded `ErrRange`). -/
def int64Clamp (x : Int) : Int :=
  if x > 9223372036854775807 then 9223372036854775807
  else if x < -9223372036854775808 then -9223372036854775808
  else x

/-- The value returned by Go `strconv.Atoi` with the error discarded: 0 on a
syntax error, the int64-clamped value on a range error. -/
def atoiGo (l : List Char) : Int :=
  match atoiParse l with
  | none => 0
  | some x => int64Clamp x

/-- `Args.GetIntOption(name, def)`: `n, _ := strconv.Atoi(val); return n`
when the key is present, the supplied default otherwise. -/
def Args.GetIntOption (a : Args) (name : List Char) (dflt : Int) : Int :=
  match mapGet a.Options name with
  | some val => atoiGo val
  | none => dflt

/-- Go `strings.HasPrefix(arg, "-")`. -/
def startsWithDash : List Char → Bool
  | [] => false
  | c :: _ => c == OPTION_CHAR

/-- The option-consuming loop of `ParseArgs`: walk the token list, recording
option tokens until the first non-option token or a bare `--`; return the
accumulated mapping and the remaining tokens. -/
def parseArgsLoop : List (List Char) → List (List Char × List Char) →
    List (List Char × List Char) × List (List Char)
  | [], opts => (opts, [])
  | arg :: rest, opts =>
    if startsWithDash arg = false then (opts, arg :: rest)
    else if arg = [OPTION_CHAR, OPTION_CHAR] then (opts, rest)
    else
      let a := arg.dropWhile (fun c => c == OPTION_CHAR)
      if '=' ∈ a then
        let key := a.takeWhile (fun c => !(c == '='))
        let val := (a.dropWhile (fun c => !(c == '='))).drop 1
        parseArgsLoop rest (mapInsert opts key val)
      else
        parseArgsLoop rest (mapInsert opts a [])

/-- `ParseArgs(line)`: tokenize, then split options from positional
arguments. -/
def ParseArgs (line : List Char) : Args :=
  let args := GetArgs line
  let p := parseArgsLoop args []
  { Options := p.1, Arguments := p.2 }

/-- A bracket character, opening or closing. -/
def isBracketChar (c : Char) : Prop :=
  c = lbraceChar ∨ c = rbraceChar ∨ c = '[' ∨ c = ']' ∨ c = '(' ∨ c = ')'

instance (c : Char) : Decidable (isBracketChar c) := by
  unfold isBracketChar
  infer_instance

/-- A character with no special meaning anywhere in the scanner: not a
quote, not a bracket, not the escape character, not a symbol-lead
character, and not the `NO_QUOTE` sentinel U+FFFD. Whitespace is allowed:
this describes the inputs of claim C8. -/
def plainInputChar (c : Char) : Prop :=
  c ∉ QUOTE_CHARS ∧ ¬ isBracketChar c ∧ c ≠ ESCAPE_CHAR ∧
  c ∉ SYMBOL_CHARS ∧ c ≠ NO_QUOTE

instance (c : Char) : Decidable (plainInputChar c) := by
  unfold plainInputChar
  infer_instance

/-- Accumulator-style splitter on maximal whitespace runs: `cur` is the word
being built. -/
def wsSplitAux (cur : List Char) : List Char → List (List Char)
  | [] => if cur = [] then [] else [cur]
  | c :: cs =>
    if isSpaceGo c = true then
      if cur = [] then wsSplitAux [] cs else cur :: wsSplitAux [] cs
    else wsSplitAux (cur ++ [c]) cs

/-- Modelled from the spec: "splitting the input on maximal runs of
whitespace" (the reference tokenization that plain inputs are compared
against). -/
def wsSplit (l : List Char) : List (List Char) :=
  wsSplitAux [] l

/-! ## Helper lemmas -/

/-- The scanner never grows its input: the unconsumed rest is never longer
than what it was given. -/
theorem nextTokenLoop_rest_le (l : List Char) :
    ∀ st t d rest, nextTokenLoop l st = some (t, d, rest) →
      rest.length ≤ l.length := by
  induction l with
  | nil =>
    intro st t d rest h
    rw [nextTokenLoop] at h
    split at h
    · cases h
    · simp only [Option.some.injEq, Prod.mk.injEq] at h
      obtain ⟨-, -, h3⟩ := h
      subst h3
      simp
  | cons c cs ih =>
    intro st t d rest h
    rw [nextTokenLoop] at h
    split at h
    · exact Nat.le_succ_of_le (ih _ _ _ _ h)
    · split at h
      · exact Nat.le_succ_of_le (ih _ _ _ _ h)
      · split at h
        · split at h
          · exact Nat.le_succ_of_le (ih _ _ _ _ h)
          · split at h
            · exact Nat.le_succ_of_le (ih _ _ _ _ h)
            · split at h
              · exact Nat.le_succ_of_le (ih _ _ _ _ h)
              · split at h
                · simp only [Option.some.injEq, Prod.mk.injEq] at h
                  obtain ⟨-, -, h3⟩ := h
                  subst h3
                  simp
                · split at h
                  · simp only [Option.some.injEq, Prod.mk.injEq] at h
                    obtain ⟨-, -, h3⟩ := h
                    subst h3
                    simp
                  · exact Nat.le_succ_of_le (ih _ _ _ _ h)
        · split at h
          · simp only [Option.some.injEq, Prod.mk.injEq] at h
            obtain ⟨-, -, h3⟩ := h
            subst h3
            simp
          · exact Nat.le_succ_of_le (ih _ _ _ _ h)

/-- A successful `NextToken` call consumes at least one character. -/
theorem nextToken_rest_lt (l t : List Char) (d : Nat) (rest : List Char)
    (h : nextToken l = some (t, d, rest)) : rest.length < l.length := by
  cases l with
  | nil =>
    simp [nextToken, nextTokenLoop, initState] at h
  | cons c cs =>
    rw [nextToken, nextTokenLoop] at h
    have hle : ∀ st2, nextTokenLoop cs st2 = some (t, d, rest) →
        rest.length < (c :: cs).length := fun st2 hh =>
      Nat.lt_succ_of_le (nextTokenLoop_rest_le cs st2 t d rest hh)
    split at h
    · exact hle _ h
    · split at h
      · exact hle _ h
      · split at h
        · split at h
          · exact hle _ h
          · split at h
            · exact hle _ h
            · split at h
              · exact hle _ h
              · split at h
                · simp only [Option.some.injEq, Prod.mk.injEq] at h
                  obtain ⟨-, -, h3⟩ := h
                  subst h3
                  simp
                · split at h
                  · simp only [Option.some.injEq, Prod.mk.injEq] at h
                    obtain ⟨-, -, h3⟩ := h
                    subst h3
                    simp
                  · exact hle _ h
        · split at h
          · simp only [Option.some.injEq, Prod.mk.injEq] at h
            obtain ⟨-, -, h3⟩ := h
            subst h3
            simp
          · exact hle _ h

/-- In plain unbounded mode (`max = 0`), the driver can only leave its loop
through the `NextToken` error path, so the rest string is empty and the
returned error is `io.EOF`. -/
theorem getTokensFuel_zero_rest (fuel : Nat) :
    ∀ (i : Nat) (toks : List (List Char)) (l : List Char), l.length < fuel →
      (getTokensFuel fuel 0 i toks l).rest = [] ∧
      (getTokensFuel fuel 0 i toks l).eofErr = true := by
  induction fuel with
  | zero =>
    intro i toks l h
    omega
  | succ f ih =>
    intro i toks l h
    rw [getTokensFuel]
    rw [if_pos (Or.inl le_rfl), if_neg (by omega)]
    cases hnt : nextToken l with
    | none => simp
    | some r =>
      obtain ⟨t, d, rest⟩ := r
      have hlt := nextToken_rest_lt l t d rest hnt
      simpa using ih (i + 1) (toks ++ [t]) rest (by omega)

/-- All strictly negative `max` values drive `getTokens` identically (the
code only tests `max < 0` and `max ≤ 0`). -/
theorem getTokensFuel_neg (fuel : Nat) :
    ∀ (m1 m2 : Int) (i : Nat) (toks : List (List Char)) (l : List Char),
      m1 < 0 → m2 < 0 →
      getTokensFuel fuel m1 i toks l = getTokensFuel fuel m2 i toks l := by
  induction fuel with
  | zero => intro m1 m2 i toks l h1 h2; rfl
  | succ f ih =>
    intro m1 m2 i toks l h1 h2
    rw [getTokensFuel, getTokensFuel]
    rw [if_pos (Or.inl (le_of_lt h1)), if_pos (Or.inl (le_of_lt h2))]
    rw [if_pos h1, if_pos h2]
    cases hp : peekOption l with
    | eofEnd => simp [hp]
    | stopRest l1 => simp [hp]
    | optNext l1 =>
      simp only [hp]
      cases hnt : nextToken l1 with
      | none => simp [hnt]
      | some r =>
        obtain ⟨t, d, rest⟩ := r
        simp only [hnt]
        exact ih m1 m2 (i + 1) (toks ++ [t]) rest h1 h2

/-- Leading whitespace before the first non-space character of a token is
skipped without touching the scanner state. -/
theorem nextTokenLoop_skip_spaces (sp : List Char) (l : List Char)
    (st : ScanState) (hsp : ∀ x ∈ sp, isSpaceGo x = true)
    (hfirst : st.first = true) (hesc : st.escape = false) :
    nextTokenLoop (sp ++ l) st = nextTokenLoop l st := by
  induction sp with
  | nil => rw [List.nil_append]
  | cons s sp ih =>
    have hs := hsp s (by simp)
    have hse : s ≠ ESCAPE_CHAR := by
      intro h
      subst h
      exact absurd hs (by decide)
    rw [List.cons_append, nextTokenLoop]
    rw [if_neg (by rintro ⟨h1, -⟩; exact hse h1)]
    rw [if_neg (by simp [hesc])]
    rw [if_pos hfirst, if_pos hs]
    exact ih (fun x hx => hsp x (by simp [hx]))

/-- First-character dispatch onto a symbol-lead character that is not an
opening bracket: the whole remaining input is returned as one token with the
delimiter value untouched. -/
theorem nextTokenLoop_symbol (c : Char) (cs : List Char) (st : ScanState)
    (hfirst : st.first = true) (hesc : st.escape = false)
    (hce : c ≠ ESCAPE_CHAR) (hcs : isSpaceGo c = false) (hcq : c ∉ QUOTE_CHARS)
    (hcb : BRACKETS c = none) (hsym : c ∈ SYMBOL_CHARS) :
    nextTokenLoop (c :: cs) st = some (st.buf ++ c :: cs, st.delim, []) := by
  rw [nextTokenLoop]
  rw [if_neg (by rintro ⟨h1, -⟩; exact hce h1)]
  rw [if_neg (by simp [hesc])]
  rw [if_pos hfirst, if_neg (by simp [hcs]), if_neg hcq, hcb]
  rw [if_pos hsym]

/-- The option-seeking peek loop skips leading whitespace and stops at the
first non-space character when that character is not `-`, leaving the input
positioned exactly there. -/
theorem peekOption_spaces (sp : List Char) (c : Char) (r : List Char)
    (hsp : ∀ x ∈ sp, isSpaceGo x = true) (hc : isSpaceGo c = false)
    (hopt : c ≠ OPTION_CHAR) :
    peekOption (sp ++ c :: r) = PeekRes.stopRest (c :: r) := by
  induction sp with
  | nil =>
    rw [List.nil_append, peekOption, if_neg hopt, if_pos hc]
  | cons s sp ih =>
    have hs := hsp s (by simp)
    have hsneq : s ≠ OPTION_CHAR := by
      intro h
      subst h
      exact absurd hs (by decide)
    rw [List.cons_append, peekOption, if_neg hsneq, if_neg (by simp [hs])]
    exact ih (fun x hx => hsp x (by simp [hx]))

/-- In bracket mode every consumed character is appended to the buffer, and
the step either returns `(buffer-so-far, delim)` or keeps `first`, `escape`,
`delim` unchanged with the bracket stack still non-empty. -/
theorem scanStep_bracket (c : Char) (st : ScanState) (hbr : st.brackets ≠ []) :
    scanStep c st = Sum.inl (st.buf ++ [c], st.delim) ∨
    ∃ st2, scanStep c st = Sum.inr st2 ∧ st2.buf = st.buf ++ [c] ∧
      st2.first = st.first ∧ st2.escape = st.escape ∧ st2.delim = st.delim ∧
      st2.brackets ≠ [] := by
  rw [scanStep, if_neg hbr]
  by_cases hq : st.quote = NO_QUOTE
  · rw [if_pos hq]
    rcases hb : st.brackets with - | ⟨b, bs⟩
    · exact absurd hb hbr
    · simp only []
      by_cases hcb : c = b
      · rw [if_pos hcb]
        by_cases hbs : bs = []
        · rw [if_pos hbs]
          exact Or.inl rfl
        · rw [if_neg hbs]
          exact Or.inr ⟨_, rfl, rfl, rfl, rfl, rfl, hbs⟩
      · rw [if_neg hcb]
        by_cases hcq : c ∈ QUOTE_CHARS
        · rw [if_pos hcq]
          exact Or.inr ⟨_, rfl, rfl, rfl, rfl, rfl, by simp⟩
        · rw [if_neg hcq]
          cases hbc : BRACKETS c with
          | some b2 =>
            simp only [hbc]
            exact Or.inr ⟨_, rfl, rfl, rfl, rfl, rfl, by simp⟩
          | none =>
            simp only [hbc]
            exact Or.inr ⟨_, rfl, rfl, rfl, rfl, rfl, by simp⟩
  · rw [if_neg hq]
    by_cases hcq : c = st.quote
    · rw [if_pos hcq]
      exact Or.inr ⟨_, rfl, rfl, rfl, rfl, rfl, hbr⟩
    · rw [if_neg hcq]
      exact Or.inr ⟨_, rfl, rfl, rfl, rfl, rfl, hbr⟩

/-- While in bracket mode on escape-free input, whatever the scan returns is
exactly the consumed prefix appended to the buffer, and the delimiter value
is left untouched (it stays the opening bracket recorded at group entry). -/
theorem nextTokenLoop_bracket_verbatim (l : List Char) :
    ∀ st t d rest, st.first = false → st.escape = false → st.brackets ≠ [] →
      ESCAPE_CHAR ∉ l → nextTokenLoop l st = some (t, d, rest) →
      d = st.delim ∧ ∃ p, l = p ++ rest ∧ t = st.buf ++ p := by
  induction l with
  | nil =>
    intro st t d rest _ _ _ _ h
    rw [nextTokenLoop] at h
    split at h
    · cases h
    · simp only [Option.some.injEq, Prod.mk.injEq] at h
      obtain ⟨h1, h2, h3⟩ := h
      subst h1 h2 h3
      exact ⟨rfl, [], by simp⟩
  | cons c cs ih =>
    intro st t d rest hf he hb hesc h
    have hce : c ≠ ESCAPE_CHAR := fun hc => hesc (by simp [hc])
    have hesc2 : ESCAPE_CHAR ∉ cs := fun hx => hesc (by simp [hx])
    rw [nextTokenLoop] at h
    rw [if_neg (by rintro ⟨h1, -⟩; exact hce h1)] at h
    rw [if_neg (by simp [he])] at h
    rw [if_neg (by simp [hf])] at h
    rcases scanStep_bracket c st hb with hstep |
      ⟨st2, hstep, hbuf2, hfirst2, hesc3, hdelim2, hbr2⟩
    · rw [hstep] at h
      simp only [Option.some.injEq, Prod.mk.injEq] at h
      obtain ⟨h1, h2, h3⟩ := h
      subst h1 h2 h3
      exact ⟨rfl, [c], rfl, rfl⟩
    · rw [hstep] at h
      simp only at h
      obtain ⟨hd, p, hp, ht⟩ :=
        ih st2 t d rest (hfirst2.trans hf) (hesc3.trans he) hbr2 hesc2 h
      refine ⟨hd.trans hdelim2, c :: p, by simp [hp], ?_⟩
      rw [ht, hbuf2]
      simp

/-- A character that is neither an opening nor a closing bracket is not in
the `BRACKETS` map. -/
theorem BRACKETS_none_of_plain {c : Char} (h : ¬ isBracketChar c) :
    BRACKETS c = none := by
  rw [BRACKETS]
  rw [if_neg (fun hh => h (Or.inl hh))]
  rw [if_neg (fun hh => h (Or.inr (Or.inr (Or.inl hh))))]
  rw [if_neg (fun hh => h (Or.inr (Or.inr (Or.inr (Or.inr (Or.inl hh))))))]

/-- In bare-word mode a non-space character distinct from the active-quote
sentinel is simply appended. -/
theorem scanStep_bare_append (c : Char) (st : ScanState) (hb : st.brackets = [])
    (hq : st.quote = NO_QUOTE) (hcs : isSpaceGo c = false) (hcn : c ≠ NO_QUOTE) :
    scanStep c st = Sum.inr { st with buf := st.buf ++ [c] } := by
  rw [scanStep, if_pos hb]
  rw [if_neg (by rintro ⟨h1, -⟩; simp [hcs] at h1)]
  rw [if_neg (by rw [hq]; exact hcn)]

/-- First-character dispatch on a wholly plain character: it is appended and
the scan continues in bare-word mode. -/
theorem nextTokenLoop_first_plain (c : Char) (cs : List Char) (st : ScanState)
    (hf : st.first = true) (he : st.escape = false) (hq : st.quote = NO_QUOTE)
    (hb : st.brackets = []) (hcs : isSpaceGo c = false)
    (hcp : plainInputChar c) :
    nextTokenLoop (c :: cs) st =
      nextTokenLoop cs { st with first := false, buf := st.buf ++ [c] } := by
  obtain ⟨hq1, hb1, he1, hs1, hn1⟩ := hcp
  rw [nextTokenLoop]
  rw [if_neg (by rintro ⟨h1, -⟩; exact he1 h1)]
  rw [if_neg (by simp [he])]
  rw [if_pos hf, if_neg (by simp [hcs]), if_neg hq1, BRACKETS_none_of_plain hb1]
  rw [if_neg hs1]
  rw [scanStep_bare_append c { st with first := false } hb hq hcs hn1]

/-- A run of plain non-space characters in bare-word mode is appended
wholesale to the buffer. -/
theorem nextTokenLoop_bare_word (w : List Char) :
    ∀ (st : ScanState) (rest : List Char), st.first = false →
      st.escape = false → st.quote = NO_QUOTE → st.brackets = [] →
      (∀ x ∈ w, isSpaceGo x = false ∧ plainInputChar x) →
      nextTokenLoop (w ++ rest) st =
        nextTokenLoop rest { st with buf := st.buf ++ w } := by
  induction w with
  | nil =>
    intro st rest _ _ _ _ _
    simp
  | cons c w ih =>
    intro st rest hf he hq hb hw
    have hc := hw c (by simp)
    have hcs := hc.1
    obtain ⟨-, -, he1, -, hn1⟩ := hc.2
    rw [List.cons_append, nextTokenLoop]
    rw [if_neg (by rintro ⟨h1, -⟩; exact he1 h1)]
    rw [if_neg (by simp [he])]
    rw [if_neg (by simp [hf])]
    rw [scanStep_bare_append c st hb hq hcs hn1]
    show nextTokenLoop (w ++ rest) { st with buf := st.buf ++ [c] } = _
    rw [ih { st with buf := st.buf ++ [c] } rest hf he hq hb
      (fun x hx => hw x (by simp [hx]))]
    rw [List.append_assoc, List.singleton_append]

/-- A whitespace character in bare-word mode terminates the token: the
buffer is returned with that character as delimiter. -/
theorem nextTokenLoop_bare_end (st : ScanState) (d : Char) (rest : List Char)
    (hf : st.first = false) (he : st.escape = false) (hq : st.quote = NO_QUOTE)
    (hb : st.brackets = []) (hd : isSpaceGo d = true) :
    nextTokenLoop (d :: rest) st = some (st.buf, d.toNat, rest) := by
  have hde : d ≠ ESCAPE_CHAR := by
    intro h
    subst h
    exact absurd hd (by decide)
  rw [nextTokenLoop]
  rw [if_neg (by rintro ⟨h1, -⟩; exact hde h1)]
  rw [if_neg (by simp [he]), if_neg (by simp [hf])]
  rw [show scanStep d st = Sum.inl (st.buf, d.toNat) from by
    rw [scanStep, if_pos hb, if_pos ⟨hd, hq⟩]]

/-- An all-whitespace input produces no token: `NextToken` signals
end-of-input. -/
theorem nextToken_allspace (sp : List Char)
    (hsp : ∀ x ∈ sp, isSpaceGo x = true) : nextToken sp = none := by
  have h := nextTokenLoop_skip_spaces sp [] initState hsp rfl rfl
  rw [List.append_nil] at h
  rw [nextToken, h, nextTokenLoop, if_pos (show initState.buf = [] from rfl)]

/-- Scanning leading spaces, then a plain word, then a whitespace delimiter:
the word is the token, the whitespace its delimiter, the tail the rest. -/
theorem nextToken_word_space (sp w : List Char) (d : Char) (r : List Char)
    (hsp : ∀ x ∈ sp, isSpaceGo x = true)
    (hw : ∀ x ∈ w, isSpaceGo x = false ∧ plainInputChar x) (hne : w ≠ [])
    (hd : isSpaceGo d = true) :
    nextToken (sp ++ (w ++ (d :: r))) = some (w, d.toNat, r) := by
  obtain ⟨c, w', rfl⟩ := List.exists_cons_of_ne_nil hne
  rw [nextToken, nextTokenLoop_skip_spaces sp _ initState hsp rfl rfl]
  rw [List.cons_append]
  rw [nextTokenLoop_first_plain c _ initState rfl rfl rfl rfl
    (hw c (by simp)).1 (hw c (by simp)).2]
  rw [nextTokenLoop_bare_word w' _ (d :: r) rfl rfl rfl rfl
    (fun x hx => hw x (by simp [hx]))]
  rw [nextTokenLoop_bare_end _ d r rfl rfl rfl rfl hd]
  simp [initState]

/-- Scanning leading spaces then a plain word that runs to end-of-input: the
word is the token, with delimiter 0 and nothing left. -/
theorem nextToken_word_eof (sp w : List Char)
    (hsp : ∀ x ∈ sp, isSpaceGo x = true)
    (hw : ∀ x ∈ w, isSpaceGo x = false ∧ plainInputChar x) (hne : w ≠ []) :
    nextToken (sp ++ w) = some (w, 0, []) := by
  obtain ⟨c, w', rfl⟩ := List.exists_cons_of_ne_nil hne
  rw [nextToken, nextTokenLoop_skip_spaces sp _ initState hsp rfl rfl]
  rw [nextTokenLoop_first_plain c _ initState rfl rfl rfl rfl
    (hw c (by simp)).1 (hw c (by simp)).2]
  have hbw := nextTokenLoop_bare_word w'
    { initState with first := false, buf := initState.buf ++ [c] } [] rfl rfl rfl rfl
    (fun x hx => hw x (by simp [hx]))
  rw [List.append_nil] at hbw
  rw [hbw, nextTokenLoop, if_neg (by simp [initState])]
  simp [initState]

/-- Splitting on whitespace ignores leading whitespace. -/
theorem wsSplitAux_spaces (sp : List Char) (rest : List Char)
    (hsp : ∀ x ∈ sp, isSpaceGo x = true) :
    wsSplitAux [] (sp ++ rest) = wsSplitAux [] rest := by
  induction sp with
  | nil => rw [List.nil_append]
  | cons s sp ih =>
    rw [List.cons_append, wsSplitAux, if_pos (hsp s (by simp)), if_pos rfl]
    exact ih (fun x hx => hsp x (by simp [hx]))

/-- Splitting on whitespace accumulates a run of non-space characters into
the current word. -/
theorem wsSplitAux_word (w : List Char) :
    ∀ (cur rest : List Char), (∀ x ∈ w, isSpaceGo x = false) →
      wsSplitAux cur (w ++ rest) = wsSplitAux (cur ++ w) rest := by
  induction w with
  | nil =>
    intro cur rest _
    simp
  | cons c w ih =>
    intro cur rest h
    rw [List.cons_append, wsSplitAux, if_neg (by simp [h c (by simp)])]
    rw [ih (cur ++ [c]) rest (fun x hx => h x (by simp [hx]))]
    rw [List.append_assoc, List.singleton_append]

/-- The plain-mode driver on special-character-free input produces exactly
the whitespace-run split, appended to the tokens already collected. -/
theorem getTokensFuel_plain (fuel : Nat) :
    ∀ (l : List Char) (i : Nat) (toks : List (List Char)), l.length < fuel →
      (∀ c ∈ l, plainInputChar c) →
      (getTokensFuel fuel 0 i toks l).tokens = toks ++ wsSplit l := by
  induction fuel with
  | zero =>
    intro l i toks h _
    omega
  | succ f ih =>
    intro l i toks hlen hpl
    have hsplit := List.takeWhile_append_dropWhile (fun x => isSpaceGo x) l
    have hspace : ∀ x ∈ l.takeWhile (fun x => isSpaceGo x), isSpaceGo x = true :=
      fun x hx => List.mem_takeWhile_imp hx
    rw [getTokensFuel, if_pos (Or.inl le_rfl), if_neg (by norm_num)]
    cases hl1 : l.dropWhile (fun x => isSpaceGo x) with
    | nil =>
      have hleq : l = l.takeWhile (fun x => isSpaceGo x) := by
        conv_lhs => rw [← hsplit]
        rw [hl1, List.append_nil]
      have hnt : nextToken l = none := by
        rw [hleq]
        exact nextToken_allspace _ hspace
      have hws : wsSplit l = [] := by
        rw [hleq, wsSplit]
        have h2 := wsSplitAux_spaces (l.takeWhile (fun x => isSpaceGo x)) [] hspace
        rw [List.append_nil] at h2
        rw [h2, wsSplitAux, if_pos rfl]
      simp only [hnt]
      simp [hws]
    | cons c cs =>
      have hcns : isSpaceGo c = false := by
        have h2 := List.head?_dropWhile_not (fun x => isSpaceGo x) l
        rw [hl1] at h2
        simpa using h2
      have hl1split := List.takeWhile_append_dropWhile
        (fun x => !(isSpaceGo x)) (c :: cs)
      have hwns : ∀ x ∈ (c :: cs).takeWhile (fun x => !(isSpaceGo x)),
          isSpaceGo x = false := fun x hx => by
        have h2 := List.mem_takeWhile_imp hx
        simpa using h2
      have hwne : (c :: cs).takeWhile (fun x => !(isSpaceGo x)) ≠ [] := by
        rw [List.takeWhile_cons_of_pos (by simp [hcns])]
        simp
      have hlne : l ≠ [] := by
        intro hnil
        rw [hnil] at hl1
        simp at hl1
      have hlpos : 0 < l.length := List.length_pos.mpr hlne
      have hmeml1 : ∀ x ∈ (c :: cs : List Char), x ∈ l := fun x hx => by
        rw [← hsplit, hl1]
        exact List.mem_append_right _ hx
      have hww : ∀ x ∈ (c :: cs).takeWhile (fun x => !(isSpaceGo x)),
          isSpaceGo x = false ∧ plainInputChar x := fun x hx =>
        ⟨hwns x hx, hpl x (hmeml1 x (by
          rw [← hl1split]
          exact List.mem_append_left _ hx))⟩
      have hldecomp : l = l.takeWhile (fun x => isSpaceGo x) ++
          ((c :: cs).takeWhile (fun x => !(isSpaceGo x)) ++
           (c :: cs).dropWhile (fun x => !(isSpaceGo x))) := by
        rw [hl1split, ← hl1, hsplit]
      cases hr : (c :: cs).dropWhile (fun x => !(isSpaceGo x)) with
      | nil =>
        have hnt : nextToken l = some
            ((c :: cs).takeWhile (fun x => !(isSpaceGo x)), 0, []) := by
          rw [hldecomp, hr, List.append_nil]
          exact nextToken_word_eof _ _ hspace hww hwne
        have hws : wsSplit l = [(c :: cs).takeWhile (fun x => !(isSpaceGo x))] := by
          rw [hldecomp, hr, List.append_nil, wsSplit,
            wsSplitAux_spaces _ _ hspace]
          have h2 := wsSplitAux_word
            ((c :: cs).takeWhile (fun x => !(isSpaceGo x))) [] [] hwns
          rw [List.append_nil, List.nil_append] at h2
          rw [h2, wsSplitAux, if_neg hwne]
        simp only [hnt]
        rw [ih [] (i + 1) (toks ++ [(c :: cs).takeWhile (fun x => !(isSpaceGo x))])
          (by simp only [List.length_nil]; omega) (by simp)]
        rw [hws]
        simp [wsSplit, wsSplitAux]
      | cons dch r2 =>
        have hds : isSpaceGo dch = true := by
          have h2 := List.head?_dropWhile_not (fun x => !(isSpaceGo x)) (c :: cs)
          rw [hr] at h2
          simpa using h2
        have hnt : nextToken l = some
            ((c :: cs).takeWhile (fun x => !(isSpaceGo x)), dch.toNat, r2) := by
          rw [hldecomp, hr]
          exact nextToken_word_space _ _ dch r2 hspace hww hwne hds
        have hlenr : r2.length < f := by
          have hll : l.length =
              (l.takeWhile (fun x => isSpaceGo x)).length +
              (((c :: cs).takeWhile (fun x => !(isSpaceGo x))).length +
               (r2.length + 1)) := by
            conv_lhs => rw [hldecomp, hr]
            simp only [List.length_append, List.length_cons]
          omega
        have hplr : ∀ x ∈ r2, plainInputChar x := fun x hx =>
          hpl x (by
            rw [hldecomp, hr]
            simp [hx])
        have hws : wsSplit l =
            (c :: cs).takeWhile (fun x => !(isSpaceGo x)) :: wsSplit r2 := by
          rw [hldecomp, hr, wsSplit, wsSplitAux_spaces _ _ hspace]
          have h2 := wsSplitAux_word
            ((c :: cs).takeWhile (fun x => !(isSpaceGo x))) [] (dch :: r2) hwns
          rw [List.nil_append] at h2
          rw [h2, wsSplitAux, if_pos hds, if_neg hwne]
          rfl
        simp only [hnt]
        rw [ih r2 (i + 1)
          (toks ++ [(c :: cs).takeWhile (fun x => !(isSpaceGo x))]) hlenr hplr]
        simp [hws]

/-! ## Claim theorems -/

/-- C1 counterexample: with the mapping containing key `x` bound to the
non-numeric value `abc`, `GetIntOption("x", 7)` returns 0, not the supplied
default 7: the claim that the caller-supplied default is returned on a parse
failure is false on the code. -/
theorem C1_counterexample :
    Args.GetIntOption
      { Options := [(("x").data, ("abc").data)], Arguments := [] } (("x").data) 7 = 0 ∧
    (0 : Int) ≠ 7 := by decide

/-- C1 amended: when the key is present with a value that is not a decimal
integer, `GetIntOption` returns 0 (the value half of the discarded
`strconv.Atoi` result), not the caller-supplied default; the default is
returned only when the key is absent. The parse failure is indeed swallowed
(no error is surfaced — the function is total). -/
theorem C1_amended_getIntOption (a : Args) (k : List Char) (d : Int) :
    (∀ v, mapGet a.Options k = some v → atoiParse v = none →
      a.GetIntOption k d = 0) ∧
    (mapGet a.Options k = none → a.GetIntOption k d = d) := by
  constructor
  · intro v hv hbad
    simp [Args.GetIntOption, hv, atoiGo, hbad]
  · intro h
    simp [Args.GetIntOption, h]

/-- C1 witness: the amended theorem applied to a concrete mapping holding
the non-numeric value `abc` under key `x`, and to a concrete empty
mapping. -/
theorem C1_amended_getIntOption_witness :
    Args.GetIntOption
      { Options := [(("x").data, ("abc").data)], Arguments := [] } (("x").data) 7 = 0 ∧
    Args.GetIntOption { Options := [], Arguments := [] } (("x").data) 7 = 7 :=
  ⟨(C1_amended_getIntOption
      { Options := [(("x").data, ("abc").data)], Arguments := [] } (("x").data) 7).1
      (("abc").data) (by decide) (by decide),
   (C1_amended_getIntOption
      { Options := [], Arguments := [] } (("x").data) 7).2 (by decide)⟩

/-- C2 counterexample: `GetArgsN` with `N = -1 ≤ 0` runs the option-seeking
mode, not the unbounded mode: on input `a b` it returns no tokens and the
raw remainder `a b`, while the unbounded tokenizer (`N = 0`) returns both
tokens and an empty remainder. -/
theorem C2_counterexample :
    GetArgsN (("a b").data) (-1) = (([] : List (List Char)), ("a b").data) ∧
    GetArgsN (("a b").data) 0 = ([("a").data, ("b").data], ([] : List Char)) := by decide

/-- C2 amended: `GetTokensN` with `N = 0` behaves exactly as the unbounded
tokenizer (the same token list, an empty remainder, and the `io.EOF` exit);
with `N < 0` it instead behaves as the option-seeking tokenizer
`GetOptionTokens`. -/
theorem C2_amended_nonpositive (n : Int) (l : List Char) :
    (n = 0 → GetTokensN n l = ⟨(GetTokens l).1, [], true⟩) ∧
    (n < 0 → GetTokensN n l = GetOptionTokens l) := by
  constructor
  · intro hn
    subst hn
    have h := getTokensFuel_zero_rest (l.length + 1) 0 [] l (by omega)
    show getTokens 0 l = _
    rw [GetTokens]
    cases hg : getTokens 0 l with
    | mk tk rst er =>
      rw [getTokens] at hg
      rw [hg] at h
      simp only at h
      simp [hg, h.1, h.2]
  · intro hn
    show getTokens n l = getTokens (-1) l
    rw [getTokens, getTokens]
    exact getTokensFuel_neg (l.length + 1) n (-1) 0 [] l hn (by norm_num)

/-- C2 witness: the amended theorem applied at `N = 0` and `N = -1` on the
concrete line `a b`. -/
theorem C2_amended_nonpositive_witness :
    GetTokensN 0 ("a b").data = ⟨(GetTokens ("a b").data).1, [], true⟩ ∧
    GetTokensN (-1) ("a b").data = GetOptionTokens ("a b").data :=
  ⟨(C2_amended_nonpositive 0 ("a b").data).1 rfl,
   (C2_amended_nonpositive (-1) ("a b").data).2 (by norm_num)⟩

/-- C3 counterexample: in bare-word mode an unescaped double quote after the
first character is appended literally to the token and does not open a
quoted span: `a"b c"` scans to the token `a"b` (terminated by the space that
a quoted span would have swallowed), with the quote character inside the
token text. -/
theorem C3_counterexample :
    nextToken ("a\"b c\"").data = some (("a\"b").data, 32, ("c\"").data) ∧
    dquoteChar ∈ ("a\"b").data := by decide

/-- C3 amended: in bare-word mode (first character already consumed, no
active quote, no bracket group, no pending escape) an unescaped quote
character is appended literally to the token buffer, and the scanner state
is otherwise unchanged — in particular the quote flag stays `NO_QUOTE`, so
no quoted mode is entered. -/
theorem C3_amended_quote_literal (q : Char) (st : ScanState) (rest : List Char)
    (hq : q ∈ QUOTE_CHARS) (hfirst : st.first = false) (hesc : st.escape = false)
    (hquote : st.quote = NO_QUOTE) (hbr : st.brackets = []) :
    nextTokenLoop (q :: rest) st =
      nextTokenLoop rest { st with buf := st.buf ++ [q] } := by
  have hqe : q ≠ ESCAPE_CHAR := by fin_cases hq <;> decide
  have hqs : isSpaceGo q = false := by fin_cases hq <;> decide
  have hqn : q ≠ NO_QUOTE := by fin_cases hq <;> decide
  rw [nextTokenLoop]
  rw [if_neg (by rintro ⟨h1, -⟩; exact hqe h1)]
  rw [if_neg (by simp [hesc])]
  rw [if_neg (by simp [hfirst])]
  have hss : scanStep q st = Sum.inr { st with buf := st.buf ++ [q] } := by
    rw [scanStep, if_pos hbr]
    rw [if_neg (by rintro ⟨h1, -⟩; simp [hqs] at h1)]
    rw [if_neg (by rw [hquote]; exact hqn)]
  rw [hss]

/-- C3 witness: the amended theorem applied to the bare-word state holding
`a` with a double quote as the next character. -/
theorem C3_amended_quote_literal_witness :
    nextTokenLoop [dquoteChar]
      { buf := ("a").data, first := false, escape := false, quote := NO_QUOTE,
        brackets := [], delim := 0 } =
    nextTokenLoop []
      { buf := ("a").data ++ [dquoteChar], first := false, escape := false,
        quote := NO_QUOTE, brackets := [], delim := 0 } :=
  C3_amended_quote_literal dquoteChar
    { buf := ("a").data, first := false, escape := false, quote := NO_QUOTE,
      brackets := [], delim := 0 } [] (by decide) rfl rfl rfl rfl

/-- C4 counterexample: option-seeking mode returns the remainder verbatim
from the first non-option character onward, without trimming trailing
whitespace: `GetOptions("-a b ")` keeps the trailing space in the
remainder. -/
theorem C4_counterexample :
    GetOptions ("-a b ").data = ([("-a").data], ("b ").data) ∧
    trimSpaceGo ("b ").data ≠ ("b ").data := by decide

/-- C8 counterexample: `a | b` contains no quote, bracket, or escape
characters, yet tokenizes as `["a", "| b"]` (the pipe takes the
symbol-consumes-rest path) while splitting on whitespace runs gives
`["a", "|", "b"]`. -/
theorem C8_counterexample :
    (∀ c ∈ ("a | b").data,
      c ∉ QUOTE_CHARS ∧ ¬ isBracketChar c ∧ c ≠ ESCAPE_CHAR) ∧
    GetArgs ("a | b").data = [("a").data, ("| b").data] ∧
    wsSplit ("a | b").data = [("a").data, ("|").data, ("b").data] ∧
    GetArgs ("a | b").data ≠ wsSplit ("a | b").data := by decide

/-- C4 amended: in option-seeking mode, when the next non-space character
`c` is not `-`, the driver stops collecting tokens and returns everything
from `c` onward verbatim as the raw remainder — leading whitespace was
consumed by the peek loop, but no trailing trim is applied (the tail `r` is
returned as-is). -/
theorem C4_amended_stop_raw (sp : List Char) (c : Char) (r : List Char)
    (i fuel : Nat) (toks : List (List Char))
    (hsp : ∀ x ∈ sp, isSpaceGo x = true) (hc : isSpaceGo c = false)
    (hopt : c ≠ OPTION_CHAR) :
    getTokensFuel (fuel + 1) (-1) i toks (sp ++ c :: r) =
      ⟨toks, c :: r, false⟩ := by
  rw [getTokensFuel]
  rw [if_pos (Or.inl (by norm_num)), if_pos (by norm_num)]
  rw [peekOption_spaces sp c r hsp hc hopt]

/-- C4 witness: the amended theorem applied mid-run, with one collected
token, a leading space, the stop character `b`, and a tail ending in a
space that is returned untrimmed. -/
theorem C4_amended_stop_raw_witness :
    getTokensFuel (4 + 1) (-1) 1 [("-a").data] ([' '] ++ 'b' :: [' ']) =
      ⟨[("-a").data], 'b' :: [' '], false⟩ :=
  C4_amended_stop_raw [' '] 'b' [' '] 1 4 [("-a").data]
    (by decide) (by decide) (by decide)

/-- C5: reaching end-of-input with an open quote or an open bracket group
and a non-empty buffer is not an error: the accumulated text is returned as
a token (`some`, never the `io.EOF` signal); concretely an unterminated
bracket input and an unterminated quote input each yield their accumulated
single token. -/
theorem C5_eof_no_error (st : ScanState)
    (_hopen : st.quote ≠ NO_QUOTE ∨ st.brackets ≠ []) (hbuf : st.buf ≠ []) :
    nextTokenLoop [] st = some (st.buf, st.delim, []) ∧
    nextToken ("\x7bx").data = some (("\x7bx").data, 123, []) ∧
    nextToken ("\"x").data = some (("x").data, 0, []) := by
  refine ⟨?_, by decide, by decide⟩
  rw [nextTokenLoop, if_neg hbuf]

/-- C5 witness: the theorem applied to the end-of-input state of scanning
`"x` — quote still open, buffer holding `x`. -/
theorem C5_eof_no_error_witness :
    nextTokenLoop []
      { buf := ("x").data, first := false, escape := false, quote := dquoteChar,
        brackets := [], delim := 0 } = some (("x").data, 0, []) :=
  (C5_eof_no_error
    { buf := ("x").data, first := false, escape := false, quote := dquoteChar,
      brackets := [], delim := 0 }
    (Or.inl (by decide)) (by decide)).1

/-- C6: when the first character is an opening bracket, whatever token
`NextToken` returns is the consumed span verbatim (all bracket and quote
delimiters included), and the returned delimiter value is the opening
bracket character recorded at group entry, not the character that closed
the group. -/
theorem C6_bracket_verbatim (b bb : Char) (l t rest : List Char) (d : Nat)
    (hb : BRACKETS b = some bb) (hesc : ESCAPE_CHAR ∉ l)
    (h : nextToken (b :: l) = some (t, d, rest)) :
    d = b.toNat ∧ ∃ p, b :: l = p ++ rest ∧ t = p := by
  have hcases : b = lbraceChar ∨ b = '[' ∨ b = '(' := by
    by_contra hcon
    push_neg at hcon
    obtain ⟨n1, n2, n3⟩ := hcon
    rw [BRACKETS, if_neg n1, if_neg n2, if_neg n3] at hb
    cases hb
  have hbq : b ∉ QUOTE_CHARS := by rcases hcases with rfl | rfl | rfl <;> decide
  have hbe : b ≠ ESCAPE_CHAR := by rcases hcases with rfl | rfl | rfl <;> decide
  have hbs : isSpaceGo b = false := by rcases hcases with rfl | rfl | rfl <;> decide
  rw [nextToken, nextTokenLoop] at h
  rw [if_neg (by rintro ⟨h1, -⟩; exact hbe h1)] at h
  rw [if_neg (by simp [initState])] at h
  rw [if_pos (show initState.first = true from rfl), if_neg (by simp [hbs]),
    if_neg hbq, hb] at h
  obtain ⟨hd, p, hp, ht⟩ :=
    nextTokenLoop_bracket_verbatim l _ t d rest rfl rfl (by simp) hesc h
  refine ⟨hd, b :: p, by simp [hp], ?_⟩
  rw [ht]
  simp [initState]

/-- C6 witness: the theorem applied to the nested example from the spec,
`{a:[1,2],b:(3,4)}`, which scans to a single token equal to the literal
input with delimiter `{` (code point 123). -/
theorem C6_bracket_verbatim_witness :
    123 = Char.toNat lbraceChar ∧
    ∃ p, lbraceChar :: ("a:[1,2],b:(3,4)\x7d").data = p ++ ([] : List Char) ∧
      ("\x7ba:[1,2],b:(3,4)\x7d").data = p :=
  C6_bracket_verbatim lbraceChar rbraceChar ("a:[1,2],b:(3,4)\x7d").data
    ("\x7ba:[1,2],b:(3,4)\x7d").data [] 123 (by decide) (by decide) (by decide)

/-- C7: a token whose first character (after leading-space skip) is one of
the non-bracket symbol-lead characters `| > < #` consumes the whole
remaining input verbatim as one token with delimiter 0, and no further
token follows (the next call signals end-of-input). -/
theorem C7_symbol_tail (c : Char) (sp rest : List Char)
    (hc : c ∈ ['|', '>', '<', '#']) (hsp : ∀ x ∈ sp, isSpaceGo x = true) :
    nextToken (sp ++ c :: rest) = some (c :: rest, 0, []) ∧
    nextToken ([] : List Char) = none := by
  refine ⟨?_, by decide⟩
  have h1 : c ≠ ESCAPE_CHAR := by fin_cases hc <;> decide
  have h2 : isSpaceGo c = false := by fin_cases hc <;> decide
  have h3 : c ∉ QUOTE_CHARS := by fin_cases hc <;> decide
  have h4 : BRACKETS c = none := by fin_cases hc <;> decide
  have h5 : c ∈ SYMBOL_CHARS := by fin_cases hc <;> decide
  rw [nextToken, nextTokenLoop_skip_spaces sp (c :: rest) initState hsp rfl rfl]
  simpa [initState] using
    nextTokenLoop_symbol c rest initState rfl rfl h1 h2 h3 h4 h5

/-- C7 witness: the theorem applied to a leading space, the comment lead
`#`, and the tail `xy`. -/
theorem C7_symbol_tail_witness :
    nextToken ([' '] ++ '#' :: ("xy").data) = some ('#' :: ("xy").data, 0, []) ∧
    nextToken ([] : List Char) = none :=
  C7_symbol_tail '#' [' '] ("xy").data (by decide) (by decide)

/-- C8 amended: for input containing no quote characters, no bracket
characters, no escape characters, and additionally no symbol-lead
characters and no U+FFFD, `GetArgs` equals splitting the input on maximal
runs of whitespace. -/
theorem C8_amended_plain_split (l : List Char)
    (h : ∀ c ∈ l, plainInputChar c) : GetArgs l = wsSplit l := by
  have h2 := getTokensFuel_plain (l.length + 1) l 0 [] (by omega) h
  rw [GetArgs, GetTokensN, getTokens]
  rw [h2, List.nil_append]

/-- C8 witness: the amended theorem applied to a concrete plain line with a
run of two spaces. -/
theorem C8_amended_plain_split_witness :
    GetArgs ("one two  three").data = wsSplit ("one two  three").data :=
  C8_amended_plain_split ("one two  three").data (by decide)

/-- C10 counterexample: the input `#\` ends with an unescaped escape
character, yet the backslash does appear in a token: the leading `#` takes
the symbol-consumes-rest path, which copies the remaining input verbatim
with no escape processing. -/
theorem C10_counterexample :
    GetArgs ['#', ESCAPE_CHAR] = [['#', ESCAPE_CHAR]] ∧
    ESCAPE_CHAR ∈ ['#', ESCAPE_CHAR] ∧
    ['#', ESCAPE_CHAR].getLast? = some ESCAPE_CHAR := by decide

/-- C10 amended: when the trailing unescaped escape character is read by the
scanner's normal character loop (so not inside a symbol-tail copy), it only
sets the pending-escape flag and is never added to the buffer; at
end-of-input the pending escape is thus silently discarded: an empty buffer
signals end-of-input (so the single input `\` produces zero tokens) and a
non-empty buffer is returned without the backslash (input `ab\` yields the
single token `ab`). -/
theorem C10_amended_trailing_escape (st : ScanState) (rest : List Char)
    (hesc : st.escape = false) :
    nextTokenLoop (ESCAPE_CHAR :: rest) st =
      nextTokenLoop rest { st with escape := true, first := false } ∧
    (∀ st2 : ScanState, st2.escape = true → st2.buf = [] →
      nextTokenLoop [] st2 = none) ∧
    nextToken [ESCAPE_CHAR] = none ∧
    GetArgs (("ab").data ++ [ESCAPE_CHAR]) = [("ab").data] := by
  refine ⟨?_, ?_, by decide, by decide⟩
  · rw [nextTokenLoop, if_pos ⟨rfl, hesc⟩]
  · intro st2 _ h2
    rw [nextTokenLoop, if_pos h2]

/-- C10 witness: the amended theorem applied at the scanner's initial state
with nothing after the backslash. -/
theorem C10_amended_trailing_escape_witness :
    nextTokenLoop [ESCAPE_CHAR] initState =
      nextTokenLoop [] { initState with escape := true, first := false } :=
  (C10_amended_trailing_escape initState [] rfl).1

/-- C9: `ParseArgs` on the specified line produces exactly the options
`l ↦ ""`, `number ↦ "42"`, `where ↦ "here"` and exactly the positionals
`-not-an-option- one two three`; the bare `--` is consumed, stops option
parsing and is recorded nowhere. -/
theorem C9_parseArgs_example :
    ParseArgs ("-l --number=42 -where=here -- -not-an-option- one two three").data =
      { Options := [(("l").data, []), (("number").data, ("42").data),
                    (("where").data, ("here").data)],
        Arguments := [("-not-an-option-").data, ("one").data, ("two").data,
                      ("three").data] } := by decide

end ArgsPkg
